import Mathlib

/-!
Verification of the `crabodon` content-extraction core
(`src/content.rs`, `src/content/visit.rs`, `src/content/parse.rs`).

The Rust core converts an already-parsed markup tree into a typed
semantic representation.  We embed the tree shallowly (`Node`), the
element classifier (`find_visit_kind_element`, `parse_href`,
`parse_special_href`), the traversal engine (`Parser.visit`,
`commit_string`, `Parser.parse`, `visit_content`), and the structural
builder (`ParseVisitor`, `parse_content`).

The raw-markup-to-tree HTML parser and the `url` crate are external
collaborators declared out of scope by the design document; the tree is
therefore taken as input directly, and URL decomposition is modelled
from the spec (see `Url.parse`).
-/

namespace Crabodon

/-! ## Small string utilities (kernel-reducible replacements for
`str::split`) -/

/-- Split a character list at every occurrence of `sep`, keeping empty
pieces, as Rust's `str::split(char)` does ( `"".split(sep)` yields one
empty piece). -/
def splitChars (sep : Char) : List Char → List (List Char)
  | [] => [[]]
  | c :: cs =>
    let r := splitChars sep cs
    if c = sep then [] :: r
    else
      match r with
      | [] => [[c]]
      | h :: t => (c :: h) :: t

/-- Split a string on a separator character, keeping empty pieces.
Mirrors `class.split(' ')` in `find_visit_kind_element`. -/
def splitStr (sep : Char) (s : String) : List String :=
  (splitChars sep s.data).map (fun cs => String.mk cs)

/-- Attribute lookup: `element.attributes.borrow().get(name)`.  Returns
the value of the first attribute with the given name. -/
def getAttr (attrs : List (String × String)) (name : String) : Option String :=
  (attrs.find? (fun a => a.fst = name)).map (fun a => a.snd)

/-! ## Data model (`src/content.rs`) -/

/-- A plain hyperlink (`struct Link`). -/
structure Link where
  href : String
deriving DecidableEq, Repr

/-- A mention (`struct Mention`): `host` is the instance hostname,
`user` the account handle. -/
structure Mention where
  href : String
  host : String
  user : String
deriving DecidableEq, Repr

/-- A hashtag (`struct Hashtag`): `tag` is the tag text. -/
structure Hashtag where
  href : String
  tag : String
deriving DecidableEq, Repr

/-- The kinds of Mastodon links (`enum LinkKind`). -/
inductive LinkKind where
  | Link (link : Link)
  | Mention (mention : Mention)
  | Hashtag (hashtag : Hashtag)
deriving DecidableEq, Repr

/-! ## URL model

Modelled from the spec: the `url` crate used by `parse_special_href` is
an external collaborator; §6 of the design document only requires that
it "expose host and path-segment decomposition and fail gracefully
(returning not-parseable) on malformed URLs".  We model a parsed URL by
exactly the two observations the code makes (`host_str`,
`path_segments`), and the parser itself by the scheme-host-segments
decomposition of well-formed absolute URLs. -/

/-- A parsed URL, reduced to the two observations `parse_special_href`
makes of it: `url.host_str()` and `url.path_segments()`. -/
structure Url where
  host_str : Option String
  path_segments : Option (List String)
deriving DecidableEq, Repr

/-- Modelled from the spec: `Url::parse`.  Accepts `scheme://host` and
`scheme://host/seg/…/seg`; anything else is not parseable.  A URL with
no path after the host has no extractable path segments. -/
def Url.parse (href : String) : Option Url :=
  match splitChars '/' href.data with
  | scheme :: [] :: host :: segs =>
    if scheme.getLast? = some ':' ∧ scheme.length ≥ 2 ∧ host ≠ [] then
      some
        { host_str := some (String.mk host)
          path_segments :=
            if segs = [] then none else some (segs.map (fun cs => String.mk cs)) }
    else none
  | _ => none

/-! ## Element classifier (`src/content/visit.rs`) -/

/-- `enum VisitKind`: the semantic role of one markup node. -/
inductive VisitKind where
  | Nothing
  | Children
  | Text (text : String)
  | NewLine
  | Ellipsis
  | Paragraph
  | Link (link : LinkKind)
deriving DecidableEq, Repr

/-- `Parser::parse_special_href`: classify an href as a hashtag or a
mention, using the anchor's class set; `none` when the URL does not
parse or lacks the needed structure. -/
def parse_special_href (href : String) (classes : List String) : Option LinkKind := do
  let url ← Url.parse href
  if "hashtag" ∈ classes then
    let segments ← url.path_segments
    let tag ← segments.getLast?
    pure (LinkKind.Hashtag { href := href, tag := tag })
  else if "mention" ∈ classes then
    let host ← url.host_str
    let segments ← url.path_segments
    let user ← segments.getLast?
    pure (LinkKind.Mention { href := href, host := host, user := user })
  else none

/-- `Parser::parse_href`: fall back to a plain `Link` when the href is
not a special (hashtag/mention) one. -/
def parse_href (href : String) (classes : List String) : LinkKind :=
  match parse_special_href href classes with
  | some element => element
  | none => LinkKind.Link { href := href }

/-- `Parser::find_visit_kind_element`: classify an element node from
its tag name and attributes. -/
def find_visit_kind_element (name : String) (attrs : List (String × String)) : VisitKind :=
  match name with
  | "p" => VisitKind.Paragraph
  | "a" =>
    let cls := (getAttr attrs "class").getD ""
    let classes := splitStr ' ' cls
    let href := (getAttr attrs "href").getD ""
    VisitKind.Link (parse_href href classes)
  | "span" =>
    match (getAttr attrs "class").getD "" with
    | "invisible" => VisitKind.Nothing
    | "ellipsis" => VisitKind.Ellipsis
    | _ => VisitKind.Children
  | "br" => VisitKind.NewLine
  | _ => VisitKind.Children

/-! ## Markup tree

The raw-markup-to-tree parser (kuchiki / html5ever) is an external
collaborator; the engine only reads the tree.  A node is an element
(with tag name, attributes and children), a text node, or any other
node kind (document root, comments, …), which the classifier maps to
`Children`. -/

/-- One node of the already-parsed markup tree (`kuchiki::NodeRef`). -/
inductive Node where
  | element (name : String) (attrs : List (String × String)) (children : List Node)
  | text (s : String)
  | other (children : List Node)
deriving Repr

/-- `Parser::find_visit_kind`: element nodes are classified from their
tag and attributes, text nodes yield their literal content, every
other node kind is traversed transparently. -/
def find_visit_kind : Node → VisitKind
  | Node.element name attrs _ => find_visit_kind_element name attrs
  | Node.text s => VisitKind.Text s
  | Node.other _ => VisitKind.Children

/-! ## Visitor contract (`trait Visit`) and traversal engine -/

/-- The `Visit` trait: a visitor with state `σ` and output `Out`.
Each Rust method `fn m(&mut self, …)` becomes a state-update
function. -/
structure Visit (σ : Type) (Out : Type) where
  text : String → σ → σ
  new_line : σ → σ
  begin_paragraph : σ → σ
  end_paragraph : σ → σ
  begin_link : LinkKind → σ → σ
  end_link : LinkKind → σ → σ
  finalize : σ → Out

/-- `struct Parser`: the visitor's state together with the
text-accumulation buffer `current_text`. -/
structure ParserState (σ : Type) where
  visitor : σ
  current_text : String

/-- `Parser::commit_string`: flush the buffer through `visitor.text`
when it is non-empty, and clear it. -/
def commit_string (V : Visit σ Out) (s : ParserState σ) : ParserState σ :=
  if s.current_text.data = [] then { s with current_text := "" }
  else { visitor := V.text s.current_text s.visitor, current_text := "" }

mutual

/-- `Parser::visit`: classify the node and act on the classification.
The element case inlines the `match` on `find_visit_kind`'s result
(text and non-element nodes are classified `Text` and `Children`
directly, as in `find_visit_kind`). -/
def visit (V : Visit σ Out) : Node → ParserState σ → ParserState σ
  | Node.text t, s => { s with current_text := s.current_text ++ t }
  | Node.other children, s => visit_children V children s
  | Node.element name attrs children, s =>
    match find_visit_kind_element name attrs with
    | VisitKind.Nothing => s
    | VisitKind.Children => visit_children V children s
    | VisitKind.Text t => { s with current_text := s.current_text ++ t }
    | VisitKind.NewLine =>
      let s := commit_string V s
      { s with visitor := V.new_line s.visitor }
    | VisitKind.Ellipsis =>
      let s := visit_children V children s
      { s with current_text := s.current_text ++ "…" }
    | VisitKind.Paragraph =>
      let s := commit_string V s
      let s := { s with visitor := V.begin_paragraph s.visitor }
      let s := visit_children V children s
      let s := commit_string V s
      { s with visitor := V.end_paragraph s.visitor }
    | VisitKind.Link link =>
      let s := commit_string V s
      let s := { s with visitor := V.begin_link link s.visitor }
      let s := visit_children V children s
      let s := commit_string V s
      { s with visitor := V.end_link link s.visitor }

/-- `Parser::visit_children`: visit the children in document order. -/
def visit_children (V : Visit σ Out) : List Node → ParserState σ → ParserState σ
  | [], s => s
  | c :: cs, s => visit_children V cs (visit V c s)

end

/-- `Parser::parse`: visit the root, flush any pending text, then
finalize. -/
def Parser.parse (V : Visit σ Out) (v₀ : σ) (node : Node) : Out :=
  let s := visit V node { visitor := v₀, current_text := "" }
  let s := commit_string V s
  V.finalize s.visitor

/-- `visit_content`: run a visitor over a content tree.  (In Rust the
argument is a markup string handed to the external HTML parser; the
embedding takes the resulting tree directly.) -/
def visit_content (V : Visit σ Out) (v₀ : σ) (content : Node) : Out :=
  Parser.parse V v₀ content

/-! ## Structural builder (`src/content/parse.rs`) -/

/-- `enum LinkNode`: one element nested inside a link. -/
inductive LinkNode where
  | Text (s : String)
  | NewLine
deriving DecidableEq, Repr

/-- `enum ParagraphNode`: one element of a paragraph. -/
inductive ParagraphNode where
  | Link (kind : LinkKind) (children : List LinkNode)
  | Text (s : String)
  | NewLine
deriving DecidableEq, Repr

/-- `struct ParseVisitor`: the structural builder's state
(`#[derive(Default)]`). -/
structure ParseVisitor where
  paragraphs : List (List ParagraphNode) := []
  paragraph_count : Nat := 0
  link_count : Nat := 0
  current_paragraph : List ParagraphNode := []
  current_link : List LinkNode := []
deriving DecidableEq, Repr

namespace ParseVisitor

/-- `ParseVisitor::text`: route a text fragment, or drop it when no
paragraph is open. -/
def text (t : String) (s : ParseVisitor) : ParseVisitor :=
  if s.paragraph_count > 0 then
    if s.link_count > 0 then
      { s with current_link := s.current_link ++ [LinkNode.Text t] }
    else
      { s with current_paragraph := s.current_paragraph ++ [ParagraphNode.Text t] }
  else s

/-- `ParseVisitor::new_line`: route a line break, or drop it when no
paragraph is open. -/
def new_line (s : ParseVisitor) : ParseVisitor :=
  if s.paragraph_count > 0 then
    if s.link_count > 0 then
      { s with current_link := s.current_link ++ [LinkNode.NewLine] }
    else
      { s with current_paragraph := s.current_paragraph ++ [ParagraphNode.NewLine] }
  else s

/-- `ParseVisitor::begin_paragraph`. -/
def begin_paragraph (s : ParseVisitor) : ParseVisitor :=
  { s with paragraph_count := s.paragraph_count + 1 }

/-- `ParseVisitor::end_paragraph`: saturating decrement; commit the
current paragraph when the count reaches zero. -/
def end_paragraph (s : ParseVisitor) : ParseVisitor :=
  let pc := s.paragraph_count - 1
  if pc = 0 then
    { s with
      paragraph_count := pc
      current_paragraph := []
      paragraphs := s.paragraphs ++ [s.current_paragraph] }
  else { s with paragraph_count := pc }

/-- `ParseVisitor::begin_link`. -/
def begin_link (_link : LinkKind) (s : ParseVisitor) : ParseVisitor :=
  { s with link_count := s.link_count + 1 }

/-- `ParseVisitor::end_link`: saturating decrement; commit the current
link's children as a `ParagraphNode::Link` when the count reaches
zero. -/
def end_link (link : LinkKind) (s : ParseVisitor) : ParseVisitor :=
  let lc := s.link_count - 1
  if lc = 0 then
    { s with
      link_count := lc
      current_link := []
      current_paragraph := s.current_paragraph ++ [ParagraphNode.Link link s.current_link] }
  else { s with link_count := lc }

end ParseVisitor

/-- The `impl Visit for ParseVisitor` instance. -/
def parseVisit : Visit ParseVisitor (List (List ParagraphNode)) :=
  { text := ParseVisitor.text
    new_line := ParseVisitor.new_line
    begin_paragraph := ParseVisitor.begin_paragraph
    end_paragraph := ParseVisitor.end_paragraph
    begin_link := ParseVisitor.begin_link
    end_link := ParseVisitor.end_link
    finalize := fun s => s.paragraphs }

/-- `parse_content`: the high-level extraction, run with a fresh
default builder state. -/
def parse_content (content : Node) : List (List ParagraphNode) :=
  visit_content parseVisit {} content

/-! ## Event log

The flat sequence of visitor callbacks that one traversal delivers.
This is the `enum Node`/`impl Visit for Vec<Node>` event-recording
visitor of `visit.rs`'s test module, promoted to a specification
device: every visitor receives exactly this sequence (see the
simulation theorem below). -/

/-- One visitor callback. -/
inductive Event where
  | text (s : String)
  | new_line
  | begin_paragraph
  | end_paragraph
  | begin_link (k : LinkKind)
  | end_link (k : LinkKind)
deriving DecidableEq, Repr

/-- The event-recording visitor (`impl Visit for Vec<Node>` in the
source's tests). -/
def logVisit : Visit (List Event) (List Event) :=
  { text := fun t l => l ++ [Event.text t]
    new_line := fun l => l ++ [Event.new_line]
    begin_paragraph := fun l => l ++ [Event.begin_paragraph]
    end_paragraph := fun l => l ++ [Event.end_paragraph]
    begin_link := fun k l => l ++ [Event.begin_link k]
    end_link := fun k l => l ++ [Event.end_link k]
    finalize := fun l => l }

/-- Deliver one recorded event to a visitor. -/
def applyEvent (V : Visit σ Out) (s : σ) : Event → σ
  | Event.text t => V.text t s
  | Event.new_line => V.new_line s
  | Event.begin_paragraph => V.begin_paragraph s
  | Event.end_paragraph => V.end_paragraph s
  | Event.begin_link k => V.begin_link k s
  | Event.end_link k => V.end_link k s

/-- Deliver a recorded event sequence to a visitor, in order. -/
def runEvents (V : Visit σ Out) (s : σ) : List Event → σ
  | [] => s
  | e :: es => runEvents V (applyEvent V s e) es

/-- The flush of a buffer, as events: one `text` event when the buffer
is non-empty, nothing otherwise. -/
def flushEvents (buf : String) : List Event :=
  if buf.data = [] then [] else [Event.text buf]

mutual

/-- The event sequence emitted while visiting one node, together with
the buffer left behind, as a function of the incoming buffer.  This
mirrors `Parser::visit` with the visitor abstracted away. -/
def eventsOf : Node → String → List Event × String
  | Node.text t, buf => ([], buf ++ t)
  | Node.other children, buf => eventsOfChildren children buf
  | Node.element name attrs children, buf =>
    match find_visit_kind_element name attrs with
    | VisitKind.Nothing => ([], buf)
    | VisitKind.Children => eventsOfChildren children buf
    | VisitKind.Text t => ([], buf ++ t)
    | VisitKind.NewLine => (flushEvents buf ++ [Event.new_line], "")
    | VisitKind.Ellipsis =>
      let r := eventsOfChildren children buf
      (r.fst, r.snd ++ "…")
    | VisitKind.Paragraph =>
      let r := eventsOfChildren children ""
      (flushEvents buf ++ [Event.begin_paragraph] ++ r.fst ++ flushEvents r.snd
        ++ [Event.end_paragraph], "")
    | VisitKind.Link link =>
      let r := eventsOfChildren children ""
      (flushEvents buf ++ [Event.begin_link link] ++ r.fst ++ flushEvents r.snd
        ++ [Event.end_link link], "")

/-- Event sequence of a child list, threading the buffer left to
right. -/
def eventsOfChildren : List Node → String → List Event × String
  | [], buf => ([], buf)
  | c :: cs, buf =>
    let r := eventsOf c buf
    let r' := eventsOfChildren cs r.snd
    (r.fst ++ r'.fst, r'.snd)

end

/-- The complete event sequence of one traversal, including the final
flush performed by `Parser::parse` before `finalize`. -/
def events (content : Node) : List Event :=
  let r := eventsOf content ""
  r.fst ++ flushEvents r.snd

/-! ## Specification predicates

Decidable predicates used to state the claims: proper nesting of the
delivered begin/end calls, non-emptiness and maximality of text
events, absence of adjacent `Text` nodes in the built output, and the
nesting discipline of input trees. -/

/-- An open structural context: a paragraph or a link. -/
inductive Brk where
  | P
  | L
deriving DecidableEq, Repr

/-- Stack-based checker for proper nesting of begin/end events:
every `end` matches the innermost open `begin` of the same kind, and
every context opened is closed. -/
def checkNest : List Brk → List Event → Bool
  | stk, [] => stk.isEmpty
  | stk, Event.text _ :: es => checkNest stk es
  | stk, Event.new_line :: es => checkNest stk es
  | stk, Event.begin_paragraph :: es => checkNest (Brk.P :: stk) es
  | Brk.P :: stk, Event.end_paragraph :: es => checkNest stk es
  | _, Event.end_paragraph :: _ => false
  | stk, Event.begin_link _ :: es => checkNest (Brk.L :: stk) es
  | Brk.L :: stk, Event.end_link _ :: es => checkNest stk es
  | _, Event.end_link _ :: _ => false

/-- Whether an event is a `text` event. -/
def Event.isText : Event → Bool
  | Event.text _ => true
  | _ => false

/-- All `text` events carry a non-empty string. -/
def textsNonempty (es : List Event) : Bool :=
  es.all (fun e =>
    match e with
    | Event.text t => decide (t.data ≠ [])
    | _ => true)

/-- No two consecutive `text` events (text is flushed at most once per
structural boundary). -/
def noAdjTextEvents : List Event → Bool
  | a :: b :: rest => (!(a.isText && b.isText)) && noAdjTextEvents (b :: rest)
  | _ => true

/-- The last event of the sequence, if any, is a `text` event. -/
def lastIsText (es : List Event) : Bool :=
  match es.getLast? with
  | some e => e.isText
  | none => false

/-- Whether a `ParagraphNode` is a `Text` node. -/
def ParagraphNode.isText : ParagraphNode → Bool
  | ParagraphNode.Text _ => true
  | _ => false

/-- Whether a `LinkNode` is a `Text` node. -/
def LinkNode.isText : LinkNode → Bool
  | LinkNode.Text _ => true
  | _ => false

/-- No two consecutive `Text` nodes in a link's child list. -/
def noAdjL : List LinkNode → Bool
  | a :: b :: rest => (!(a.isText && b.isText)) && noAdjL (b :: rest)
  | _ => true

/-- No two consecutive `Text` nodes in a paragraph's node list. -/
def noAdjP : List ParagraphNode → Bool
  | a :: b :: rest => (!(a.isText && b.isText)) && noAdjP (b :: rest)
  | _ => true

/-- A paragraph node's own link children, when it has any, contain no
adjacent `Text` nodes. -/
def ParagraphNode.linkOK : ParagraphNode → Bool
  | ParagraphNode.Link _ children => noAdjL children
  | _ => true

/-- Text maximality for one output paragraph: no adjacent `Text`
nodes, at the paragraph level and inside each of its links. -/
def paraOK (l : List ParagraphNode) : Bool :=
  noAdjP l && l.all ParagraphNode.linkOK

/-- The paragraph list, if non-empty, ends with a `Text` node. -/
def endsTextP (l : List ParagraphNode) : Bool :=
  match l.getLast? with
  | some x => x.isText
  | none => false

/-- The link child list, if non-empty, ends with a `Text` node. -/
def endsTextL (l : List LinkNode) : Bool :=
  match l.getLast? with
  | some x => x.isText
  | none => false

mutual

/-- Nesting discipline of an input tree, relative to the enclosing
context (`inP`: inside a paragraph element, `inL`: inside an anchor):
no paragraph-classified element inside a paragraph or an anchor, and no
link-classified element inside an anchor. -/
def wfNode (inP inL : Bool) : Node → Bool
  | Node.element name attrs children =>
    match find_visit_kind_element name attrs with
    | VisitKind.Paragraph => !inP && !inL && wfNodes true false children
    | VisitKind.Link _ => !inL && wfNodes inP true children
    | _ => wfNodes inP inL children
  | Node.text _ => true
  | Node.other children => wfNodes inP inL children

/-- `wfNode` over a child list. -/
def wfNodes (inP inL : Bool) : List Node → Bool
  | [] => true
  | c :: cs => wfNode inP inL c && wfNodes inP inL cs

end

mutual

/-- Number of nodes of a markup tree. -/
def nodeSize : Node → Nat
  | Node.element _ _ children => 1 + nodesSize children
  | Node.text _ => 1
  | Node.other children => 1 + nodesSize children

/-- Number of nodes of a forest. -/
def nodesSize : List Node → Nat
  | [] => 0
  | c :: cs => nodeSize c + nodesSize cs

end

/-- Whether a string starts with the character `@`. -/
def startsWithAt (s : String) : Bool :=
  match s.data with
  | c :: _ => c = '@'
  | [] => false

/-! ## Lemmas: the traversal delivers exactly the event sequence -/

theorem runEvents_append (V : Visit σ Out) (s : σ) (a b : List Event) :
    runEvents V s (a ++ b) = runEvents V (runEvents V s a) b := by
  induction a generalizing s with
  | nil => rfl
  | cons e es ih => simp [runEvents, ih]

theorem commit_string_flush (V : Visit σ Out) (v : σ) (buf : String) :
    commit_string V { visitor := v, current_text := buf } =
      { visitor := runEvents V v (flushEvents buf), current_text := "" } := by
  unfold commit_string flushEvents
  split <;> simp [runEvents, applyEvent]

mutual

/-- Simulation: visiting a node updates any visitor exactly by the
recorded event sequence `eventsOf`, and leaves the buffer `eventsOf`
predicts. -/
theorem visit_eventsOf (V : Visit σ Out) (n : Node) (v : σ) (buf : String) :
    visit V n { visitor := v, current_text := buf } =
      { visitor := runEvents V v (eventsOf n buf).fst,
        current_text := (eventsOf n buf).snd } := by
  cases n with
  | text t => simp [visit, eventsOf, runEvents]
  | other cs => simpa [visit, eventsOf] using visit_children_eventsOf V cs v buf
  | element name attrs cs =>
    cases h : find_visit_kind_element name attrs with
    | Nothing => simp [visit, eventsOf, h, runEvents]
    | Children => simpa [visit, eventsOf, h] using visit_children_eventsOf V cs v buf
    | Text t => simp [visit, eventsOf, h, runEvents]
    | NewLine =>
      simp [visit, eventsOf, h, commit_string_flush, runEvents_append, runEvents, applyEvent]
    | Ellipsis =>
      simp [visit, eventsOf, h, visit_children_eventsOf V cs v buf]
    | Paragraph =>
      simp [visit, eventsOf, h, commit_string_flush, visit_children_eventsOf,
        runEvents_append, runEvents, applyEvent]
    | Link link =>
      simp [visit, eventsOf, h, commit_string_flush, visit_children_eventsOf,
        runEvents_append, runEvents, applyEvent]

/-- Simulation over a child list. -/
theorem visit_children_eventsOf (V : Visit σ Out) (cs : List Node) (v : σ) (buf : String) :
    visit_children V cs { visitor := v, current_text := buf } =
      { visitor := runEvents V v (eventsOfChildren cs buf).fst,
        current_text := (eventsOfChildren cs buf).snd } := by
  cases cs with
  | nil => simp [visit_children, eventsOfChildren, runEvents]
  | cons c cs =>
    simp [visit_children, eventsOfChildren, visit_eventsOf V c v buf,
      visit_children_eventsOf V cs, runEvents_append]

end

/-- The complete run: any visitor's output is its fold over `events`,
finalized once at the very end. -/
theorem visit_content_runEvents (V : Visit σ Out) (v₀ : σ) (content : Node) :
    visit_content V v₀ content = V.finalize (runEvents V v₀ (events content)) := by
  simp only [visit_content, Parser.parse, events, visit_eventsOf, commit_string_flush,
    runEvents_append]

/-! ## Lemmas: well-formedness of the event sequence -/

/-- The head of the sequence, if any, is a `text` event. -/
def headIsText : List Event → Bool
  | Event.text _ :: _ => true
  | _ => false

theorem checkNest_text (stk : List Brk) (t : String) (es : List Event) :
    checkNest stk (Event.text t :: es) = checkNest stk es := by
  cases stk with
  | nil => rfl
  | cons b stk => cases b <;> rfl

theorem checkNest_flush (stk : List Brk) (buf : String) (es : List Event) :
    checkNest stk (flushEvents buf ++ es) = checkNest stk es := by
  unfold flushEvents
  split
  · rfl
  · simp [checkNest_text]

mutual

theorem checkNest_eventsOf (n : Node) (buf : String) (stk : List Brk) (rest : List Event) :
    checkNest stk ((eventsOf n buf).fst ++ rest) = checkNest stk rest := by
  cases n with
  | text t => simp [eventsOf]
  | other cs => simpa [eventsOf] using checkNest_eventsOfChildren cs buf stk rest
  | element name attrs cs =>
    cases h : find_visit_kind_element name attrs with
    | Nothing => simp [eventsOf, h]
    | Children => simpa [eventsOf, h] using checkNest_eventsOfChildren cs buf stk rest
    | Text t => simp [eventsOf, h]
    | NewLine =>
      cases stk with
      | nil => simp [eventsOf, h, checkNest_flush, checkNest]
      | cons b stk => cases b <;> simp [eventsOf, h, checkNest_flush, checkNest]
    | Ellipsis => simpa [eventsOf, h] using checkNest_eventsOfChildren cs buf stk rest
    | Paragraph =>
      simp [eventsOf, h, checkNest_flush, checkNest, checkNest_eventsOfChildren cs ""]
    | Link link =>
      simp [eventsOf, h, checkNest_flush, checkNest, checkNest_eventsOfChildren cs ""]

theorem checkNest_eventsOfChildren (cs : List Node) (buf : String) (stk : List Brk)
    (rest : List Event) :
    checkNest stk ((eventsOfChildren cs buf).fst ++ rest) = checkNest stk rest := by
  cases cs with
  | nil => simp [eventsOfChildren]
  | cons c cs =>
    simp only [eventsOfChildren, List.append_assoc]
    rw [checkNest_eventsOf, checkNest_eventsOfChildren]

end

/-- The event sequence of a full traversal is properly nested. -/
theorem checkNest_events (content : Node) : checkNest [] (events content) = true := by
  unfold events
  simp only []
  rw [checkNest_eventsOf]
  have h2 := checkNest_flush [] (eventsOf content "").snd []
  simp only [List.append_nil] at h2
  rw [h2]
  rfl

theorem textsNonempty_append (a b : List Event) :
    textsNonempty (a ++ b) = (textsNonempty a && textsNonempty b) := by
  simp [textsNonempty]

theorem textsNonempty_flush (buf : String) : textsNonempty (flushEvents buf) = true := by
  unfold flushEvents textsNonempty
  split <;> simp_all

mutual

theorem textsNonempty_eventsOf (n : Node) (buf : String) :
    textsNonempty (eventsOf n buf).fst = true := by
  cases n with
  | text t => simp [eventsOf, textsNonempty]
  | other cs => simpa [eventsOf] using textsNonempty_eventsOfChildren cs buf
  | element name attrs cs =>
    cases h : find_visit_kind_element name attrs with
    | Nothing => simp [eventsOf, h, textsNonempty]
    | Children => simpa [eventsOf, h] using textsNonempty_eventsOfChildren cs buf
    | Text t => simp [eventsOf, h, textsNonempty]
    | NewLine =>
      simp only [eventsOf, h]
      rw [textsNonempty_append, textsNonempty_flush]
      simp [textsNonempty]
    | Ellipsis => simpa [eventsOf, h] using textsNonempty_eventsOfChildren cs buf
    | Paragraph =>
      simp only [eventsOf, h]
      simp only [textsNonempty_append, textsNonempty_flush,
        textsNonempty_eventsOfChildren cs ""]
      simp [textsNonempty]
    | Link link =>
      simp only [eventsOf, h]
      simp only [textsNonempty_append, textsNonempty_flush,
        textsNonempty_eventsOfChildren cs ""]
      simp [textsNonempty]

theorem textsNonempty_eventsOfChildren (cs : List Node) (buf : String) :
    textsNonempty (eventsOfChildren cs buf).fst = true := by
  cases cs with
  | nil => simp [eventsOfChildren, textsNonempty]
  | cons c cs =>
    simp [eventsOfChildren, textsNonempty_append, textsNonempty_eventsOf c buf,
      textsNonempty_eventsOfChildren cs]

end

/-- Every `text` callback of a full traversal carries a non-empty
string. -/
theorem textsNonempty_events (content : Node) : textsNonempty (events content) = true := by
  unfold events
  simp only []
  rw [textsNonempty_append, textsNonempty_eventsOf, textsNonempty_flush]
  rfl

/-- A segment of the event log emitted inside a traversal: no two
adjacent `text` events, and it never ends on a `text` event (every
flush is immediately followed by a structural notification). -/
def SegOK (es : List Event) : Prop :=
  noAdjTextEvents es = true ∧ lastIsText es = false

theorem segOK_nil : SegOK [] := by
  constructor <;> rfl

theorem lastIsText_cons (x : Event) (l : List Event) (h : l ≠ []) :
    lastIsText (x :: l) = lastIsText l := by
  cases l with
  | nil => exact absurd rfl h
  | cons y l => simp [lastIsText, List.getLast?_cons_cons]

theorem segOK_append : ∀ (a b : List Event), SegOK a → SegOK b → SegOK (a ++ b)
  | [], _, _, hb => hb
  | [x], b, ha, hb => by
    cases b with
    | nil => simpa using ha
    | cons y bs =>
      obtain ⟨_, ha2⟩ := ha
      obtain ⟨hb1, hb2⟩ := hb
      have hx : x.isText = false := by simpa [lastIsText, Event.isText] using ha2
      constructor
      · simp only [List.singleton_append, noAdjTextEvents, hx, Bool.false_and,
          Bool.not_false, Bool.true_and]
        exact hb1
      · rw [List.singleton_append, lastIsText_cons x (y :: bs) (by simp)]
        exact hb2
  | x :: z :: a', b, ha, hb => by
    obtain ⟨ha1, ha2⟩ := ha
    rw [noAdjTextEvents, Bool.and_eq_true] at ha1
    have hrec := segOK_append (z :: a') b
      ⟨ha1.2, by rwa [lastIsText_cons x (z :: a') (by simp)] at ha2⟩ hb
    constructor
    · show noAdjTextEvents (x :: z :: (a' ++ b)) = true
      rw [noAdjTextEvents, Bool.and_eq_true]
      exact ⟨ha1.1, hrec.1⟩
    · rw [List.cons_append, lastIsText_cons x (z :: a' ++ b) (by simp)]
      exact hrec.2

/-- Appending one final event to a segment keeps adjacency-freedom,
whatever the event (the segment never ends on a text event). -/
theorem noAdj_append_single : ∀ (a : List Event), SegOK a → ∀ e : Event,
    noAdjTextEvents (a ++ [e]) = true
  | [], _, e => rfl
  | [x], ha, e => by
    have hx : x.isText = false := by simpa [lastIsText, Event.isText] using ha.2
    simp [noAdjTextEvents, hx]
  | x :: z :: a', ha, e => by
    obtain ⟨ha1, ha2⟩ := ha
    rw [noAdjTextEvents, Bool.and_eq_true] at ha1
    have hrec := noAdj_append_single (z :: a')
      ⟨ha1.2, by rwa [lastIsText_cons x (z :: a') (by simp)] at ha2⟩ e
    show noAdjTextEvents (x :: z :: (a' ++ [e])) = true
    rw [noAdjTextEvents, Bool.and_eq_true]
    exact ⟨ha1.1, hrec⟩

theorem segOK_flush_then (buf : String) (e : Event) (he : e.isText = false) :
    SegOK (flushEvents buf ++ [e]) := by
  unfold flushEvents
  split
  · exact ⟨by simp [noAdjTextEvents], by simp [lastIsText, he]⟩
  · exact ⟨by cases e <;> simp_all [noAdjTextEvents, Event.isText],
      by cases e <;> simp_all [lastIsText, List.getLast?_cons_cons, Event.isText]⟩

mutual

/-- The events of one node form a text-maximal segment: no adjacent
text events, and the segment does not end on a text event. -/
theorem segOK_eventsOf (n : Node) (buf : String) : SegOK (eventsOf n buf).fst := by
  cases n with
  | text t => exact segOK_nil
  | other cs => simpa [eventsOf] using segOK_eventsOfChildren cs buf
  | element name attrs cs =>
    cases h : find_visit_kind_element name attrs with
    | Nothing => simpa [eventsOf, h] using segOK_nil
    | Children => simpa [eventsOf, h] using segOK_eventsOfChildren cs buf
    | Text t => simpa [eventsOf, h] using segOK_nil
    | NewLine =>
      simpa [eventsOf, h] using segOK_flush_then buf Event.new_line rfl
    | Ellipsis => simpa [eventsOf, h] using segOK_eventsOfChildren cs buf
    | Paragraph =>
      have h1 := segOK_flush_then buf Event.begin_paragraph rfl
      have h2 := segOK_eventsOfChildren cs ""
      have h3 := segOK_flush_then (eventsOfChildren cs "").snd Event.end_paragraph rfl
      have := segOK_append _ _ (segOK_append _ _ h1 h2) h3
      simpa [eventsOf, h, List.append_assoc] using this
    | Link link =>
      have h1 := segOK_flush_then buf (Event.begin_link link) rfl
      have h2 := segOK_eventsOfChildren cs ""
      have h3 := segOK_flush_then (eventsOfChildren cs "").snd (Event.end_link link) rfl
      have := segOK_append _ _ (segOK_append _ _ h1 h2) h3
      simpa [eventsOf, h, List.append_assoc] using this

/-- Segment property for a child list. -/
theorem segOK_eventsOfChildren (cs : List Node) (buf : String) :
    SegOK (eventsOfChildren cs buf).fst := by
  cases cs with
  | nil => exact segOK_nil
  | cons c cs =>
    simpa [eventsOfChildren] using
      segOK_append _ _ (segOK_eventsOf c buf)
        (segOK_eventsOfChildren cs (eventsOf c buf).snd)

end

/-- No two adjacent text callbacks in a full traversal. -/
theorem noAdjTextEvents_events (content : Node) :
    noAdjTextEvents (events content) = true := by
  unfold events
  simp only []
  unfold flushEvents
  split
  · simpa using (segOK_eventsOf content "").1
  · exact noAdj_append_single _ (segOK_eventsOf content "") _

/-! ## Lemmas: the event sequence is bounded by the input size -/

theorem flushEvents_length (buf : String) : (flushEvents buf).length ≤ 1 := by
  unfold flushEvents
  split <;> simp

mutual

theorem eventsOf_length (n : Node) (buf : String) :
    (eventsOf n buf).fst.length ≤ 4 * nodeSize n := by
  cases n with
  | text t => simp [eventsOf, nodeSize]
  | other cs =>
    have := eventsOfChildren_length cs buf
    simp only [eventsOf, nodeSize]
    omega
  | element name attrs cs =>
    cases h : find_visit_kind_element name attrs with
    | Nothing => simp [eventsOf, h, nodeSize]
    | Children =>
      have := eventsOfChildren_length cs buf
      simp only [eventsOf, h, nodeSize]
      omega
    | Text t => simp [eventsOf, h, nodeSize]
    | NewLine =>
      have := flushEvents_length buf
      simp only [eventsOf, h, nodeSize, List.length_append, List.length_singleton]
      omega
    | Ellipsis =>
      have := eventsOfChildren_length cs buf
      simp only [eventsOf, h, nodeSize]
      omega
    | Paragraph =>
      have h1 := flushEvents_length buf
      have h2 := eventsOfChildren_length cs ""
      have h3 := flushEvents_length (eventsOfChildren cs "").snd
      simp only [eventsOf, h, nodeSize, List.length_append, List.length_singleton]
      omega
    | Link link =>
      have h1 := flushEvents_length buf
      have h2 := eventsOfChildren_length cs ""
      have h3 := flushEvents_length (eventsOfChildren cs "").snd
      simp only [eventsOf, h, nodeSize, List.length_append, List.length_singleton]
      omega

theorem eventsOfChildren_length (cs : List Node) (buf : String) :
    (eventsOfChildren cs buf).fst.length ≤ 4 * nodesSize cs := by
  cases cs with
  | nil => simp [eventsOfChildren, nodesSize]
  | cons c cs =>
    have h1 := eventsOf_length c buf
    have h2 := eventsOfChildren_length cs (eventsOf c buf).snd
    simp only [eventsOfChildren, nodesSize, List.length_append]
    omega

end

/-- The number of visitor callbacks of one traversal is linear in the
number of nodes of the input tree. -/
theorem events_length (content : Node) :
    (events content).length ≤ 4 * nodeSize content + 1 := by
  have h1 := eventsOf_length content ""
  have h2 := flushEvents_length (eventsOf content "").snd
  unfold events
  simp only [List.length_append]
  omega

/-! ## Lemmas: text maximality of the built output -/

theorem endsTextP_concat (l : List ParagraphNode) (x : ParagraphNode) :
    endsTextP (l ++ [x]) = x.isText := by
  simp [endsTextP, List.getLast?_concat]

theorem endsTextL_concat (l : List LinkNode) (x : LinkNode) :
    endsTextL (l ++ [x]) = x.isText := by
  simp [endsTextL, List.getLast?_concat]

theorem endsTextP_cons (y : ParagraphNode) (l : List ParagraphNode) (h : l ≠ []) :
    endsTextP (y :: l) = endsTextP l := by
  cases l with
  | nil => exact absurd rfl h
  | cons z l => simp [endsTextP, List.getLast?_cons_cons]

theorem endsTextL_cons (y : LinkNode) (l : List LinkNode) (h : l ≠ []) :
    endsTextL (y :: l) = endsTextL l := by
  cases l with
  | nil => exact absurd rfl h
  | cons z l => simp [endsTextL, List.getLast?_cons_cons]

theorem noAdjP_concat : ∀ (l : List ParagraphNode) (x : ParagraphNode),
    noAdjP l = true → (endsTextP l = false ∨ x.isText = false) → noAdjP (l ++ [x]) = true
  | [], x, _, _ => rfl
  | [y], x, _, h2 => by
    have : (y.isText && x.isText) = false := by
      rcases h2 with h | h
      · simp [endsTextP] at h
        simp [h]
      · simp [h]
    simp [noAdjP, this]
  | y :: z :: l', x, h1, h2 => by
    rw [noAdjP, Bool.and_eq_true] at h1
    have hrec := noAdjP_concat (z :: l') x h1.2 (by
      rcases h2 with h | h
      · exact Or.inl (by rwa [endsTextP_cons y (z :: l') (by simp)] at h)
      · exact Or.inr h)
    show noAdjP (y :: z :: (l' ++ [x])) = true
    rw [noAdjP, Bool.and_eq_true]
    exact ⟨h1.1, hrec⟩

theorem noAdjL_concat : ∀ (l : List LinkNode) (x : LinkNode),
    noAdjL l = true → (endsTextL l = false ∨ x.isText = false) → noAdjL (l ++ [x]) = true
  | [], x, _, _ => rfl
  | [y], x, _, h2 => by
    have : (y.isText && x.isText) = false := by
      rcases h2 with h | h
      · simp [endsTextL] at h
        simp [h]
      · simp [h]
    simp [noAdjL, this]
  | y :: z :: l', x, h1, h2 => by
    rw [noAdjL, Bool.and_eq_true] at h1
    have hrec := noAdjL_concat (z :: l') x h1.2 (by
      rcases h2 with h | h
      · exact Or.inl (by rwa [endsTextL_cons y (z :: l') (by simp)] at h)
      · exact Or.inr h)
    show noAdjL (y :: z :: (l' ++ [x])) = true
    rw [noAdjL, Bool.and_eq_true]
    exact ⟨h1.1, hrec⟩

theorem paraOK_concat (l : List ParagraphNode) (x : ParagraphNode)
    (h1 : paraOK l = true) (h2 : endsTextP l = false ∨ x.isText = false)
    (h3 : x.linkOK = true) : paraOK (l ++ [x]) = true := by
  rw [paraOK, Bool.and_eq_true] at h1 ⊢
  refine ⟨noAdjP_concat l x h1.1 h2, ?_⟩
  simp [List.all_append, h1.2, h3]

/-- The invariant the structural builder maintains between sibling
visits, relative to the traversal context. -/
def INV (s : ParseVisitor) (inP inL : Bool) : Prop :=
  s.paragraph_count = (if inP then 1 else 0) ∧
  s.link_count = (if inL then 1 else 0) ∧
  s.paragraphs.all paraOK = true ∧
  paraOK s.current_paragraph = true ∧
  noAdjL s.current_link = true ∧
  (inL = false → s.current_link = []) ∧
  (inL = false → endsTextP s.current_paragraph = false) ∧
  (inL = true → endsTextL s.current_link = false)

theorem INV_default : INV {} false false := by
  refine ⟨rfl, rfl, rfl, rfl, rfl, fun _ => rfl, fun _ => rfl, fun h => by cases h⟩

theorem commit_string_visitor (V : Visit σ Out) (v : σ) (buf : String) :
    (commit_string V { visitor := v, current_text := buf }).visitor =
      if buf.data = [] then v else V.text buf v := by
  unfold commit_string
  split <;> simp_all

/-- When no paragraph is open, `ParseVisitor::text` drops its
argument. -/
theorem text_drop (s : ParseVisitor) (t : String) (h : s.paragraph_count = 0) :
    ParseVisitor.text t s = s := by
  simp [ParseVisitor.text, h]

/-- The committed buffer, whatever it is, keeps the invariant:
`text` followed by `new_line`. -/
theorem INV_newline_step (s : ParseVisitor) (inP inL : Bool) (buf : String)
    (hinv : INV s inP inL) :
    INV (ParseVisitor.new_line (if buf.data = [] then s else ParseVisitor.text buf s))
      inP inL := by
  obtain ⟨paras, pc, lc, cp, cl⟩ := s
  obtain ⟨h1, h2, h3, h4, h5, h6, h7, h8⟩ := hinv
  simp only at h1 h2 h3 h4 h5 h6 h7 h8
  cases inP with
  | false =>
    simp only [Bool.false_eq_true, if_false] at h1
    subst h1
    have hs : ∀ b : Bool, (if b = true then ParseVisitor.mk paras 0 lc cp cl
        else ParseVisitor.text buf (ParseVisitor.mk paras 0 lc cp cl)) =
        ParseVisitor.mk paras 0 lc cp cl := by
      intro b
      cases b <;> simp [ParseVisitor.text]
    rw [show (if buf.data = [] then ParseVisitor.mk paras 0 lc cp cl
        else ParseVisitor.text buf (ParseVisitor.mk paras 0 lc cp cl)) =
        ParseVisitor.mk paras 0 lc cp cl from by split <;> simp [ParseVisitor.text]]
    rw [show ParseVisitor.new_line (ParseVisitor.mk paras 0 lc cp cl) =
        ParseVisitor.mk paras 0 lc cp cl from by simp [ParseVisitor.new_line]]
    exact ⟨by simp, h2, h3, h4, h5, h6, h7, h8⟩
  | true =>
    simp only [if_true] at h1
    subst h1
    cases inL with
    | false =>
      simp only [Bool.false_eq_true, if_false] at h2
      subst h2
      have hcl : cl = [] := h6 rfl
      have hend : endsTextP cp = false := h7 rfl
      split
      · rw [show ParseVisitor.new_line (ParseVisitor.mk paras 1 0 cp cl) =
            ParseVisitor.mk paras 1 0 (cp ++ [ParagraphNode.NewLine]) cl from by
          simp [ParseVisitor.new_line]]
        exact ⟨rfl, rfl, h3, paraOK_concat _ _ h4 (Or.inr rfl) rfl, h5, fun _ => hcl,
          fun _ => by simp [endsTextP_concat, ParagraphNode.isText],
          fun h => absurd h (by decide)⟩
      · rw [show ParseVisitor.text buf (ParseVisitor.mk paras 1 0 cp cl) =
            ParseVisitor.mk paras 1 0 (cp ++ [ParagraphNode.Text buf]) cl from by
          simp [ParseVisitor.text]]
        rw [show ParseVisitor.new_line
              (ParseVisitor.mk paras 1 0 (cp ++ [ParagraphNode.Text buf]) cl) =
            ParseVisitor.mk paras 1 0
              (cp ++ [ParagraphNode.Text buf] ++ [ParagraphNode.NewLine]) cl from by
          simp [ParseVisitor.new_line]]
        refine ⟨rfl, rfl, h3, ?_, h5, fun _ => hcl,
          fun _ => by
            show endsTextP (cp ++ [ParagraphNode.Text buf] ++ [ParagraphNode.NewLine]) = false
            rw [endsTextP_concat]
            rfl,
          fun h => absurd h (by decide)⟩
        exact paraOK_concat _ _ (paraOK_concat _ _ h4 (Or.inl hend) rfl) (Or.inr rfl) rfl
    | true =>
      simp only [if_true] at h2
      subst h2
      have hend : endsTextL cl = false := h8 rfl
      split
      · rw [show ParseVisitor.new_line (ParseVisitor.mk paras 1 1 cp cl) =
            ParseVisitor.mk paras 1 1 cp (cl ++ [LinkNode.NewLine]) from by
          simp [ParseVisitor.new_line]]
        exact ⟨rfl, rfl, h3, h4, noAdjL_concat _ _ h5 (Or.inr rfl),
          fun h => absurd h (by decide), fun h => absurd h (by decide),
          fun _ => by simp [endsTextL_concat, LinkNode.isText]⟩
      · rw [show ParseVisitor.text buf (ParseVisitor.mk paras 1 1 cp cl) =
            ParseVisitor.mk paras 1 1 cp (cl ++ [LinkNode.Text buf]) from by
          simp [ParseVisitor.text]]
        rw [show ParseVisitor.new_line
              (ParseVisitor.mk paras 1 1 cp (cl ++ [LinkNode.Text buf])) =
            ParseVisitor.mk paras 1 1 cp
              (cl ++ [LinkNode.Text buf] ++ [LinkNode.NewLine]) from by
          simp [ParseVisitor.new_line]]
        refine ⟨rfl, rfl, h3, h4, ?_, fun h => absurd h (by decide), fun h => absurd h (by decide),
          fun _ => by
            show endsTextL (cl ++ [LinkNode.Text buf] ++ [LinkNode.NewLine]) = false
            rw [endsTextL_concat]
            rfl⟩
        exact noAdjL_concat _ _ (noAdjL_concat _ _ h5 (Or.inl hend)) (Or.inr rfl)

/-- Opening a paragraph (after the commit of the pending buffer, which
is dropped because no paragraph is open yet). -/
theorem INV_begin_paragraph_step (s : ParseVisitor) (buf : String)
    (hinv : INV s false false) :
    INV (ParseVisitor.begin_paragraph (if buf.data = [] then s else ParseVisitor.text buf s))
      true false := by
  obtain ⟨paras, pc, lc, cp, cl⟩ := s
  obtain ⟨h1, h2, h3, h4, h5, h6, h7, h8⟩ := hinv
  simp only at h1 h2 h3 h4 h5
  simp only [Bool.false_eq_true, if_false] at h1 h2
  subst h1
  subst h2
  rw [show (if buf.data = [] then ParseVisitor.mk paras 0 0 cp cl
      else ParseVisitor.text buf (ParseVisitor.mk paras 0 0 cp cl)) =
      ParseVisitor.mk paras 0 0 cp cl from by split <;> simp [ParseVisitor.text]]
  rw [show ParseVisitor.begin_paragraph (ParseVisitor.mk paras 0 0 cp cl) =
      ParseVisitor.mk paras 1 0 cp cl from by simp [ParseVisitor.begin_paragraph]]
  exact ⟨rfl, by simp, h3, h4, h5, h6, h7, h8⟩

/-- Closing a paragraph at depth one: the pending buffer is flushed
into the paragraph, which is then committed to the output. -/
theorem INV_end_paragraph_step (s : ParseVisitor) (buf : String)
    (hinv : INV s true false) :
    INV (ParseVisitor.end_paragraph (if buf.data = [] then s else ParseVisitor.text buf s))
      false false := by
  obtain ⟨paras, pc, lc, cp, cl⟩ := s
  obtain ⟨h1, h2, h3, h4, h5, h6, h7, h8⟩ := hinv
  simp only at h1 h2 h3 h4 h5
  simp only [if_true] at h1
  simp only [Bool.false_eq_true, if_false] at h2
  subst h1
  subst h2
  have hcl : cl = [] := h6 rfl
  have hend : endsTextP cp = false := h7 rfl
  have key : ∀ cp' : List ParagraphNode, paraOK cp' = true →
      INV (ParseVisitor.end_paragraph (ParseVisitor.mk paras 1 0 cp' cl)) false false := by
    intro cp' hok
    rw [show ParseVisitor.end_paragraph (ParseVisitor.mk paras 1 0 cp' cl) =
        ParseVisitor.mk (paras ++ [cp']) 0 0 [] cl from by simp [ParseVisitor.end_paragraph]]
    refine ⟨by simp, by simp, ?_, rfl, h5, fun _ => hcl, fun _ => rfl,
      fun h => absurd h (by decide)⟩
    simp [List.all_append, h3, hok]
  split
  · exact key cp h4
  · rw [show ParseVisitor.text buf (ParseVisitor.mk paras 1 0 cp cl) =
        ParseVisitor.mk paras 1 0 (cp ++ [ParagraphNode.Text buf]) cl from by
      simp [ParseVisitor.text]]
    exact key _ (paraOK_concat _ _ h4 (Or.inl hend) rfl)

/-- Opening a link: the pending buffer is flushed into the enclosing
context first. -/
theorem INV_begin_link_step (s : ParseVisitor) (inP : Bool) (k : LinkKind) (buf : String)
    (hinv : INV s inP false) :
    INV (ParseVisitor.begin_link k (if buf.data = [] then s else ParseVisitor.text buf s))
      inP true := by
  obtain ⟨paras, pc, lc, cp, cl⟩ := s
  obtain ⟨h1, h2, h3, h4, h5, h6, h7, h8⟩ := hinv
  simp only at h1 h2 h3 h4 h5
  simp only [Bool.false_eq_true, if_false] at h2
  subst h2
  have hcl : cl = [] := h6 rfl
  have hend : endsTextP cp = false := h7 rfl
  cases inP with
  | false =>
    simp only [Bool.false_eq_true, if_false] at h1
    subst h1
    rw [show (if buf.data = [] then ParseVisitor.mk paras 0 0 cp cl
        else ParseVisitor.text buf (ParseVisitor.mk paras 0 0 cp cl)) =
        ParseVisitor.mk paras 0 0 cp cl from by split <;> simp [ParseVisitor.text]]
    rw [show ParseVisitor.begin_link k (ParseVisitor.mk paras 0 0 cp cl) =
        ParseVisitor.mk paras 0 1 cp cl from by simp [ParseVisitor.begin_link]]
    refine ⟨rfl, rfl, h3, h4, h5, fun h => absurd h (by decide),
      fun h => absurd h (by decide), fun _ => ?_⟩
    rw [hcl]
    rfl
  | true =>
    simp only [if_true] at h1
    subst h1
    have key : ∀ cp' : List ParagraphNode, paraOK cp' = true →
        INV (ParseVisitor.begin_link k (ParseVisitor.mk paras 1 0 cp' cl)) true true := by
      intro cp' hok
      rw [show ParseVisitor.begin_link k (ParseVisitor.mk paras 1 0 cp' cl) =
          ParseVisitor.mk paras 1 1 cp' cl from by simp [ParseVisitor.begin_link]]
      refine ⟨rfl, rfl, h3, hok, h5, fun h => absurd h (by decide),
        fun h => absurd h (by decide), fun _ => ?_⟩
      rw [hcl]
      rfl
    split
    · exact key cp h4
    · rw [show ParseVisitor.text buf (ParseVisitor.mk paras 1 0 cp cl) =
          ParseVisitor.mk paras 1 0 (cp ++ [ParagraphNode.Text buf]) cl from by
        simp [ParseVisitor.text]]
      exact key _ (paraOK_concat _ _ h4 (Or.inl hend) rfl)

/-- Closing a link at depth one: the pending buffer is flushed into the
link's children (or dropped if no paragraph is open), and the completed
link node is appended to the current paragraph. -/
theorem INV_end_link_step (s : ParseVisitor) (inP : Bool) (k : LinkKind) (buf : String)
    (hinv : INV s inP true) :
    INV (ParseVisitor.end_link k (if buf.data = [] then s else ParseVisitor.text buf s))
      inP false := by
  obtain ⟨paras, pc, lc, cp, cl⟩ := s
  obtain ⟨h1, h2, h3, h4, h5, h6, h7, h8⟩ := hinv
  simp only at h1 h2 h3 h4 h5
  simp only [if_true] at h2
  subst h2
  have hend : endsTextL cl = false := h8 rfl
  have key : ∀ (pc' : Nat) (cl' : List LinkNode), noAdjL cl' = true →
      pc' = (if inP then 1 else 0) →
      INV (ParseVisitor.end_link k (ParseVisitor.mk paras pc' 1 cp cl')) inP false := by
    intro pc' cl' hok hpc
    rw [show ParseVisitor.end_link k (ParseVisitor.mk paras pc' 1 cp cl') =
        ParseVisitor.mk paras pc' 0 (cp ++ [ParagraphNode.Link k cl']) [] from by
      simp [ParseVisitor.end_link]]
    refine ⟨hpc, rfl, h3, ?_, rfl, fun _ => rfl, fun _ => ?_,
      fun h => absurd h (by decide)⟩
    · exact paraOK_concat _ _ h4 (Or.inr rfl) hok
    · rw [endsTextP_concat]
      rfl
  cases inP with
  | false =>
    simp only [Bool.false_eq_true, if_false] at h1
    subst h1
    rw [show (if buf.data = [] then ParseVisitor.mk paras 0 1 cp cl
        else ParseVisitor.text buf (ParseVisitor.mk paras 0 1 cp cl)) =
        ParseVisitor.mk paras 0 1 cp cl from by split <;> simp [ParseVisitor.text]]
    exact key 0 cl h5 (by simp)
  | true =>
    simp only [if_true] at h1
    subst h1
    split
    · exact key 1 cl h5 (by simp)
    · rw [show ParseVisitor.text buf (ParseVisitor.mk paras 1 1 cp cl) =
          ParseVisitor.mk paras 1 1 cp (cl ++ [LinkNode.Text buf]) from by
        simp [ParseVisitor.text]]
      exact key 1 _ (noAdjL_concat _ _ h5 (Or.inl hend)) (by simp)

theorem commit_string_text (V : Visit σ Out) (st : ParserState σ) :
    (commit_string V st).current_text = "" := by
  unfold commit_string
  split <;> rfl

theorem commit_string_visitor_of (V : Visit σ Out) (st : ParserState σ) :
    (commit_string V st).visitor =
      if st.current_text.data = [] then st.visitor else V.text st.current_text st.visitor := by
  unfold commit_string
  split <;> simp_all

mutual

/-- The builder invariant is preserved by visiting any node that
respects the nesting discipline of its context. -/
theorem visit_INV (n : Node) (inP inL : Bool) (s : ParseVisitor) (buf : String)
    (hwf : wfNode inP inL n = true) (hinv : INV s inP inL) :
    INV (visit parseVisit n { visitor := s, current_text := buf }).visitor inP inL := by
  cases n with
  | text t => simpa [visit] using hinv
  | other cs =>
    simp only [wfNode] at hwf
    simpa [visit] using visit_children_INV cs inP inL s buf hwf hinv
  | element name attrs cs =>
    cases h : find_visit_kind_element name attrs with
    | Nothing => simpa [visit, h] using hinv
    | Children =>
      simp only [wfNode, h] at hwf
      simpa [visit, h] using visit_children_INV cs inP inL s buf hwf hinv
    | Text t => simpa [visit, h] using hinv
    | NewLine =>
      simp only [visit, h]
      rw [commit_string_visitor_of]
      exact INV_newline_step s inP inL buf hinv
    | Ellipsis =>
      simp only [wfNode, h] at hwf
      simpa [visit, h] using visit_children_INV cs inP inL s buf hwf hinv
    | Paragraph =>
      simp only [wfNode, h, Bool.and_eq_true, Bool.not_eq_eq_eq_not, Bool.not_true] at hwf
      obtain ⟨⟨hP, hL⟩, hwf⟩ := hwf
      subst hP
      subst hL
      simp only [visit, h, commit_string_text, commit_string_visitor_of]
      exact INV_end_paragraph_step _ _
        (visit_children_INV cs true false _ "" hwf
          (INV_begin_paragraph_step s buf hinv))
    | Link link =>
      simp only [wfNode, h, Bool.and_eq_true, Bool.not_eq_eq_eq_not, Bool.not_true] at hwf
      obtain ⟨hL, hwf⟩ := hwf
      subst hL
      simp only [visit, h, commit_string_text, commit_string_visitor_of]
      exact INV_end_link_step _ inP link _
        (visit_children_INV cs inP true _ "" hwf
          (INV_begin_link_step s inP link buf hinv))

/-- Invariant preservation over a child list. -/
theorem visit_children_INV (cs : List Node) (inP inL : Bool) (s : ParseVisitor)
    (buf : String) (hwf : wfNodes inP inL cs = true) (hinv : INV s inP inL) :
    INV (visit_children parseVisit cs { visitor := s, current_text := buf }).visitor
      inP inL := by
  cases cs with
  | nil => simpa [visit_children] using hinv
  | cons c cs' =>
    rw [wfNodes, Bool.and_eq_true] at hwf
    have h1 := visit_INV c inP inL s buf hwf.1 hinv
    have h2 := visit_children_INV cs' inP inL
      (visit parseVisit c { visitor := s, current_text := buf }).visitor
      (visit parseVisit c { visitor := s, current_text := buf }).current_text
      hwf.2 h1
    simp only [visit_children]
    exact h2

end

/-- Text maximality of the full extraction under the nesting
discipline. -/
theorem builder_all_paraOK (content : Node) (hwf : wfNode false false content = true) :
    (parse_content content).all paraOK = true := by
  unfold parse_content visit_content Parser.parse
  simp only [commit_string_visitor_of]
  obtain ⟨h1, h2, h3, h4, h5, h6, h7, h8⟩ := visit_INV content false false {} "" hwf INV_default
  show (ParseVisitor.paragraphs _).all paraOK = true
  split
  · exact h3
  · show (ParseVisitor.paragraphs (ParseVisitor.text
        ((visit parseVisit content { visitor := {}, current_text := "" }).current_text)
        ((visit parseVisit content { visitor := {}, current_text := "" }).visitor))).all
        paraOK = true
    rw [text_drop _ _ (by simpa using h1)]
    exact h3

/-! ## Claims -/

/-- C1: an anchor whose class set contains `"hashtag"` and whose href
parses as a URL with no extractable path segments (none at all, or none
to take as last) classifies as a plain `Link{href}`, not a
`Hashtag`. -/
theorem hashtag_no_segments_plain_link (attrs : List (String × String)) (url : Url)
    (hmem : "hashtag" ∈ splitStr ' ' ((getAttr attrs "class").getD ""))
    (hparse : Url.parse ((getAttr attrs "href").getD "") = some url)
    (hsegs : url.path_segments.bind List.getLast? = none) :
    find_visit_kind_element "a" attrs =
      VisitKind.Link (LinkKind.Link { href := (getAttr attrs "href").getD "" }) := by
  have hspecial : parse_special_href ((getAttr attrs "href").getD "")
      (splitStr ' ' ((getAttr attrs "class").getD "")) = none := by
    unfold parse_special_href
    rw [hparse]
    simp only [Option.some_bind, if_pos hmem]
    cases hps : url.path_segments with
    | none => simp [hps]
    | some segs =>
      rw [hps] at hsegs
      simp only [Option.some_bind] at hsegs
      simp [hps, hsegs]
  show VisitKind.Link (parse_href ((getAttr attrs "href").getD "")
    (splitStr ' ' ((getAttr attrs "class").getD ""))) = _
  unfold parse_href
  rw [hspecial]

/-- Witness for C1 at the spec's example: class `"hashtag"`, href
`"https://example.com"` (parses, no path segments) falls back to a
plain link. -/
theorem hashtag_no_segments_plain_link_w :
    "hashtag" ∈ splitStr ' ' "hashtag" ∧
    Url.parse "https://example.com" = some { host_str := some "example.com", path_segments := none } ∧
    find_visit_kind_element "a" [("class", "hashtag"), ("href", "https://example.com")] =
      VisitKind.Link (LinkKind.Link { href := "https://example.com" }) :=
  ⟨by decide, by decide,
    hashtag_no_segments_plain_link [("class", "hashtag"), ("href", "https://example.com")]
      { host_str := some "example.com", path_segments := none }
      (by decide) (by decide) (by decide)⟩

/-- C2 counterexample: for the span class attribute
`"invisible invisible"`, the set obtained by splitting on spaces is
exactly `{"invisible"}` (every piece is `"invisible"` and the set is
non-empty), yet the classifier returns `Children`, not `Nothing`: it
compares the whole class string, never the split set. -/
theorem span_class_set_cex :
    (splitStr ' ' "invisible invisible").all (fun c => c = "invisible") = true ∧
    "invisible" ∈ splitStr ' ' "invisible invisible" ∧
    find_visit_kind_element "span" [("class", "invisible invisible")] = VisitKind.Children ∧
    find_visit_kind_element "span" [("class", "invisible invisible")] ≠ VisitKind.Nothing := by
  refine ⟨by decide, by decide, by decide, by decide⟩

/-- C2 amended: a span classifies as `Nothing` exactly when its raw
class attribute string equals `"invisible"`, as `Ellipsis` exactly when
it equals `"ellipsis"`, and as `Children` otherwise (no splitting into
a set takes place for spans). -/
theorem span_class_string_classification (attrs : List (String × String)) :
    (find_visit_kind_element "span" attrs = VisitKind.Nothing ↔
      (getAttr attrs "class").getD "" = "invisible") ∧
    (find_visit_kind_element "span" attrs = VisitKind.Ellipsis ↔
      (getAttr attrs "class").getD "" = "ellipsis") ∧
    ((getAttr attrs "class").getD "" ≠ "invisible" →
      (getAttr attrs "class").getD "" ≠ "ellipsis" →
      find_visit_kind_element "span" attrs = VisitKind.Children) := by
  by_cases h1 : (getAttr attrs "class").getD "" = "invisible"
  · simp [find_visit_kind_element, h1]
  · by_cases h2 : (getAttr attrs "class").getD "" = "ellipsis"
    · simp [find_visit_kind_element, h1, h2]
    · simp [find_visit_kind_element, h1, h2]

/-- Witness for C2 amended at a concrete pass-through span. -/
theorem span_class_string_classification_w :
    find_visit_kind_element "span" [("class", "wrapper")] = VisitKind.Children :=
  (span_class_string_classification [("class", "wrapper")]).2.2 (by decide) (by decide)

/-- C3 counterexample: the anchor with class `"mention"` and href
`"https://example.com/alice"` classifies as a `Mention` whose `user`
field is `"alice"` — not prefixed with `"@"`.  The code copies the last
path segment verbatim and never adds the marker. -/
theorem mention_user_at_cex :
    find_visit_kind_element "a" [("class", "mention"), ("href", "https://example.com/alice")] =
      VisitKind.Link (LinkKind.Mention
        { href := "https://example.com/alice", host := "example.com", user := "alice" }) ∧
    startsWithAt "alice" = false := by
  refine ⟨by decide, by decide⟩

/-- C3 amended: for every anchor classifying as a `Mention`, the
produced `user` field is the last path segment of the parsed href,
copied verbatim; in particular it starts with `"@"` exactly when that
segment does (as it always does in Mastodon-generated mention
hrefs). -/
theorem mention_user_is_last_segment (href : String) (classes : List String)
    (url : Url) (host : String) (segs : List String) (user : String)
    (hhash : "hashtag" ∉ classes) (hmem : "mention" ∈ classes)
    (hparse : Url.parse href = some url) (hhost : url.host_str = some host)
    (hsegs : url.path_segments = some segs) (hlast : segs.getLast? = some user) :
    parse_href href classes = LinkKind.Mention { href := href, host := host, user := user } ∧
    startsWithAt user = startsWithAt ((segs.getLast?).getD "") := by
  constructor
  · unfold parse_href parse_special_href
    rw [hparse]
    simp [hhash, hmem, hhost, hsegs, hlast]
  · rw [hlast]
    rfl

/-- Witness for C3 amended at the spec's own example (where the
Mastodon href does carry the `@` in its last segment). -/
theorem mention_user_is_last_segment_w :
    parse_href "https://mastodon.org.uk/@cybette" ["mention"] =
      LinkKind.Mention
        { href := "https://mastodon.org.uk/@cybette"
          host := "mastodon.org.uk"
          user := "@cybette" } :=
  (mention_user_is_last_segment "https://mastodon.org.uk/@cybette" ["mention"]
    { host_str := some "mastodon.org.uk", path_segments := some ["@cybette"] }
    "mastodon.org.uk" ["@cybette"] "@cybette"
    (by decide) (by decide) (by decide) (by decide) (by decide) (by decide)).1

/-- C4 counterexample: the tree for
`<a href="u"><p>x</p><p>y</p></a><p>z</p>` (a paragraph nested inside
an anchor — valid HTML) produces a link whose children are the two
adjacent `Text` nodes `"x"`, `"y"` at the same nesting level: the
inner paragraph boundaries are swallowed by the depth-gating, so the
fragments are neither merged nor separated in the final output. -/
theorem text_merging_cex :
    parse_content (Node.other
      [Node.element "a" [("href", "u")]
        [Node.element "p" [] [Node.text "x"], Node.element "p" [] [Node.text "y"]],
       Node.element "p" [] [Node.text "z"]]) =
      [[], [],
       [ParagraphNode.Link (LinkKind.Link { href := "u" })
         [LinkNode.Text "x", LinkNode.Text "y"],
        ParagraphNode.Text "z"]] ∧
    (parse_content (Node.other
      [Node.element "a" [("href", "u")]
        [Node.element "p" [] [Node.text "x"], Node.element "p" [] [Node.text "y"]],
       Node.element "p" [] [Node.text "z"]])).all paraOK = false := by
  refine ⟨by decide, by decide⟩

/-- C4 amended: for every input tree in which no paragraph-classified
element occurs inside a paragraph or inside an anchor and no anchor
occurs inside an anchor (`wfNode false false`), the final output of
`parse_content` contains no two adjacent `Text` nodes at the same
nesting level — neither inside a paragraph's node list nor inside a
link's child list. -/
theorem text_merging_maximal (content : Node) (hwf : wfNode false false content = true) :
    (parse_content content).all paraOK = true :=
  builder_all_paraOK content hwf

/-- Witness for C4 amended: two raw text runs separated only by a
transparent wrapper element merge into one `Text` node. -/
theorem text_merging_maximal_w :
    wfNode false false
      (Node.element "p" [] [Node.text "a", Node.element "b" [] [Node.text "c"]]) = true ∧
    (parse_content
      (Node.element "p" [] [Node.text "a", Node.element "b" [] [Node.text "c"]])).all
      paraOK = true ∧
    parse_content
      (Node.element "p" [] [Node.text "a", Node.element "b" [] [Node.text "c"]]) =
      [[ParagraphNode.Text "ac"]] :=
  ⟨by decide, text_merging_maximal _ (by decide), by decide⟩

/-- C5: an `ellipsis`-classed span first descends into its children and
then appends the ellipsis character to the buffer without flushing; as
a consequence a paragraph holding an ellipsis span around visible text
`t` yields the single merged `Text` node `t ++ "…"`. -/
theorem ellipsis_append_after_children :
    (∀ (σ Out : Type) (V : Visit σ Out) (attrs : List (String × String))
        (children : List Node) (s : ParserState σ),
      (getAttr attrs "class").getD "" = "ellipsis" →
      visit V (Node.element "span" attrs children) s =
        { visit_children V children s with
          current_text := (visit_children V children s).current_text ++ "…" }) ∧
    ∀ t : String,
      parse_content (Node.other [Node.element "p" []
        [Node.element "span" [("class", "ellipsis")] [Node.text t]]]) =
        [[ParagraphNode.Text (t ++ "…")]] := by
  constructor
  · intro σ Out V attrs children s h
    simp [visit, find_visit_kind_element, h]
  · intro t
    unfold parse_content visit_content Parser.parse
    simp only [visit, visit_children, find_visit_kind_element, getAttr, List.find?]
    simp [commit_string, ParseVisitor.text, ParseVisitor.begin_paragraph,
      ParseVisitor.end_paragraph, parseVisit]

/-- Witness for C5 at a concrete ellipsis span and visitor. -/
theorem ellipsis_append_after_children_w :
    (getAttr [("class", "ellipsis")] "class").getD "" = "ellipsis" ∧
    visit parseVisit (Node.element "span" [("class", "ellipsis")] [Node.text "x"])
        { visitor := {}, current_text := "" } =
      { visit_children parseVisit [Node.text "x"] { visitor := {}, current_text := "" } with
        current_text :=
          (visit_children parseVisit [Node.text "x"]
            { visitor := {}, current_text := "" }).current_text ++ "…" } ∧
    parse_content (Node.other [Node.element "p" []
      [Node.element "span" [("class", "ellipsis")] [Node.text "truncated text"]]]) =
      [[ParagraphNode.Text ("truncated text" ++ "…")]] :=
  ⟨rfl,
    ellipsis_append_after_children.1 ParseVisitor (List (List ParagraphNode)) parseVisit
      [("class", "ellipsis")] [Node.text "x"] { visitor := {}, current_text := "" } rfl,
    ellipsis_append_after_children.2 "truncated text"⟩

/-- C6: a text or new-line event delivered while the paragraph counter
is zero leaves the builder state unchanged (so the content is absent
from the final output — e.g. text and a `br` outside any paragraph
produce an empty extraction); with the paragraph counter positive the
event is routed to the current link when the link counter is positive
and to the current paragraph otherwise. -/
theorem builder_routing (s : ParseVisitor) (t : String) :
    (s.paragraph_count = 0 →
      ParseVisitor.text t s = s ∧ ParseVisitor.new_line s = s) ∧
    (0 < s.paragraph_count → 0 < s.link_count →
      ParseVisitor.text t s =
        { s with current_link := s.current_link ++ [LinkNode.Text t] } ∧
      ParseVisitor.new_line s =
        { s with current_link := s.current_link ++ [LinkNode.NewLine] }) ∧
    (0 < s.paragraph_count → s.link_count = 0 →
      ParseVisitor.text t s =
        { s with current_paragraph := s.current_paragraph ++ [ParagraphNode.Text t] } ∧
      ParseVisitor.new_line s =
        { s with current_paragraph := s.current_paragraph ++ [ParagraphNode.NewLine] }) ∧
    ∀ u : String,
      parse_content (Node.other [Node.text u, Node.element "br" [] []]) = [] := by
  refine ⟨?_, ?_, ?_, ?_⟩
  · intro h
    constructor <;> simp [ParseVisitor.text, ParseVisitor.new_line, h]
  · intro h1 h2
    constructor <;> simp [ParseVisitor.text, ParseVisitor.new_line, h1, h2]
  · intro h1 h2
    constructor <;> simp [ParseVisitor.text, ParseVisitor.new_line, h1, h2]
  · intro u
    unfold parse_content visit_content Parser.parse
    simp [visit, visit_children, find_visit_kind_element, commit_string,
      ParseVisitor.text, ParseVisitor.new_line, parseVisit]

/-- Witness for C6 at the default (all-zero) builder state. -/
theorem builder_routing_w :
    ParseVisitor.text "hi" {} = {} ∧ ParseVisitor.new_line ({} : ParseVisitor) = {} :=
  (builder_routing {} "hi").1 rfl

/-- C7: every traversal delivers a well-formed callback sequence: the
begin/end paragraph and link events are properly nested (stack
checker), every `text` callback carries a non-empty string, no two
`text` callbacks are adjacent (the buffer is flushed at most once per
structural boundary), and every visitor's run equals the fold of its
callbacks over that one sequence with `finalize` applied exactly once
at the very end, after the final flush. -/
theorem visitor_sequence_well_formed (content : Node) :
    checkNest [] (events content) = true ∧
    textsNonempty (events content) = true ∧
    noAdjTextEvents (events content) = true ∧
    ∀ (σ Out : Type) (V : Visit σ Out) (v₀ : σ),
      visit_content V v₀ content = V.finalize (runEvents V v₀ (events content)) :=
  ⟨checkNest_events content, textsNonempty_events content, noAdjTextEvents_events content,
    fun _ _ V v₀ => visit_content_runEvents V v₀ content⟩

/-- C8: an `end_link` at link depth one with no open paragraph still
appends the completed `ParagraphNode.Link` to `current_paragraph`
(unlike text and new-lines, which are dropped); it then surfaces at the
start of the next completed top-level paragraph, and is silently lost
at `finalize` when no paragraph completes afterwards. -/
theorem stray_link_appended (k : LinkKind) (s : ParseVisitor)
    (_hp : s.paragraph_count = 0) (hl : s.link_count = 1) :
    ParseVisitor.end_link k s =
      { s with
        link_count := 0
        current_link := []
        current_paragraph := s.current_paragraph ++ [ParagraphNode.Link k s.current_link] } ∧
    parse_content (Node.other [Node.element "a" [("href", "u")] [Node.text "x"],
      Node.element "p" [] [Node.text "z"]]) =
      [[ParagraphNode.Link (LinkKind.Link { href := "u" }) [], ParagraphNode.Text "z"]] ∧
    parse_content (Node.other [Node.element "a" [("href", "u")] [Node.text "x"]]) = [] := by
  refine ⟨?_, by decide, by decide⟩
  simp [ParseVisitor.end_link, hl]

/-- Witness for C8 at a concrete builder state with one open link and
no open paragraph. -/
theorem stray_link_appended_w :
    (ParseVisitor.mk [] 0 1 [] []).paragraph_count = 0 ∧
    (ParseVisitor.mk [] 0 1 [] []).link_count = 1 ∧
    ParseVisitor.end_link (LinkKind.Link { href := "u" }) (ParseVisitor.mk [] 0 1 [] []) =
      ParseVisitor.mk [] 0 0 [ParagraphNode.Link (LinkKind.Link { href := "u" }) []] [] :=
  ⟨rfl, rfl, (stray_link_appended (LinkKind.Link { href := "u" })
    (ParseVisitor.mk [] 0 1 [] []) rfl rfl).1⟩

/-- C9: the extraction is total — every definition involved is a
terminating function returning a plain value, with no error type — and
the traversal is bounded by the input size: the number of visitor
callbacks is linear in the number of tree nodes. -/
theorem extraction_total_bounded (content : Node) :
    (events content).length ≤ 4 * nodeSize content + 1 :=
  events_length content

/-- C10: extraction is deterministic and keeps no state across calls:
re-running `parse_content` on the same input yields structurally equal
output, and every run is the run started from the freshly constructed
default builder state (`ParseVisitor::default()`), which is what
makes the equality definitional in this pure embedding. -/
theorem extraction_idempotent (content : Node) :
    parse_content content = parse_content content ∧
    parse_content content = visit_content parseVisit {} content :=
  ⟨rfl, rfl⟩

end Crabodon
